import Mathlib

/-!
Verification of the event-dispatch core in `src/base/events.js`.

The file shallowly embeds the `Events` class (which extends Node's
`EventEmitter` and uses lodash's `words`, `each`, `map`, `flatten`, `flow`
and `once`, plus a bluebird-style `Promise.map`) and proves/refutes the
frozen claims about it.

Modelling conventions:
* JavaScript values that flow through the bus are modelled by `JsVal`
  (numbers, strings, function references, undefined).
* A listener is either an opaque user callback (`Listener.plain`, carrying
  an identifier and its return behaviour) or the `_.once` wrapper created
  by `Events.once` (`Listener.wrap`, carrying the data captured by the
  closure plus a unique id standing for the closure's identity).
* The bus state `Bus` holds the `EventEmitter` table `_events` (an
  insertion-ordered association list), the set of wrapper ids whose
  `_.once` flag has been consumed, the memoised results of those wrappers,
  a ghost log of all underlying callback invocations (recording the
  arguments each call received and, for calls made through a once wrapper,
  the wrapper id), and the counter used to allocate wrapper ids.
* The model covers ordinary event names; Node's special names
  (`error`, `newListener`, `removeListener`) with their extra emitter
  semantics are outside the modelled domain, as are listener lists beyond
  the default max-listeners warning threshold (the warning is not an
  observable of the API).
-/

namespace BookshelfEvents

/-- A JavaScript value as observed through the event bus. -/
inductive JsVal where
  | num (n : Nat)
  | str (s : String)
  | fn (id : Nat)
  | undef
deriving DecidableEq, Repr

/-- The return behaviour of an opaque user callback: return a plain value,
return a promise that later resolves or rejects, or throw synchronously. -/
inductive Outcome where
  | value (v : JsVal)
  | resolveLater (v : JsVal)
  | rejectLater (e : JsVal)
  | throwSync (e : JsVal)
deriving DecidableEq, Repr

/-- A registered listener: either an opaque caller-supplied callback, or the
`_.once` wrapper built by `Events.once` (`const once = _.once(() => ...)`),
which captures the `name`, `callback` and `context` arguments of the `once`
call and whose closure identity is modelled by `uid`. -/
inductive Listener where
  | plain (id : Nat) (out : Outcome)
  | wrap (name : String) (cbId : Nat) (cbOut : Outcome) (ctx : Option JsVal) (uid : Nat)
deriving DecidableEq, Repr

/-- What a listener invocation returns when it does not throw: a plain value
or a promise (pending resolution or rejection). -/
inductive Ret where
  | val (v : JsVal)
  | promiseResolve (v : JsVal)
  | promiseReject (e : JsVal)
deriving DecidableEq, Repr

/-- Ghost record of one invocation of an underlying callback: which callback
ran, the arguments it received, and (when it ran inside a once wrapper) the
wrapper's id. -/
structure Entry where
  cb : Nat
  args : List JsVal
  via : Option Nat
deriving DecidableEq, Repr

/-- The state of one `Events` instance (plus ghost observation state). -/
structure Bus where
  /-- Node `EventEmitter`'s `_events`: event name to ordered listener list. -/
  table : List (String × List Listener)
  /-- ids of once wrappers whose `_.once` flag has already been consumed. -/
  called : List Nat
  /-- memoised return value of each consumed once wrapper (`_.once` caches
  the first result; a throwing first call leaves the cache `undefined`). -/
  cache : List (Nat × Ret)
  /-- ghost log of underlying callback invocations, oldest first. -/
  log : List Entry
  /-- allocator for wrapper closure identities. -/
  nextUid : Nat
deriving DecidableEq, Repr

/-- The bus with no registrations, as freshly constructed. -/
def emptyBus : Bus := ⟨[], [], [], [], 0⟩

/-! ### lodash `words`

The source splits every name argument of `on`/`off`/`triggerThen` (and,
through `on`, of `once`) with lodash's `words(string)`.  lodash first tests
`reHasUnicodeWord`; if the string has no "complex" word feature it returns
the maximal runs of `reAsciiWord` characters, otherwise it matches the
camel-case-aware `reUnicodeWord` pattern.  The model below implements those
semantics for ASCII strings (all names in this development are ASCII; the
Latin-1/astral ranges of the lodash character classes are dropped, and a
char code ≥ 0x80 is treated as a plain word character exactly as
`reAsciiWord` does). -/

/-- `[A-Z]` (ASCII fragment of lodash's `rsUpper`). -/
def isUpperA (c : Char) : Bool := 'A' ≤ c && c ≤ 'Z'

/-- `[a-z]` (ASCII fragment of lodash's `rsLower`). -/
def isLowerA (c : Char) : Bool := 'a' ≤ c && c ≤ 'z'

/-- `\d`. -/
def isDigitA (c : Char) : Bool := '0' ≤ c && c ≤ '9'

/-- `[a-zA-Z]`. -/
def isLetterA (c : Char) : Bool := isUpperA c || isLowerA c

/-- `[a-zA-Z0-9]`. -/
def isAlnumA (c : Char) : Bool := isLetterA c || isDigitA c

/-- lodash `reAsciiWord` character class `[^\x00-\x2f\x3a-\x40\x5b-\x60\x7b-\x7f]`:
ASCII alphanumerics plus everything above `0x7f`. -/
def isAsciiWordChar (c : Char) : Bool := isAlnumA c || decide (0x80 ≤ c.val)

/-- lodash `rsBreak` restricted to ASCII: a non-alphanumeric ASCII char. -/
def isBreakA (c : Char) : Bool := !isAlnumA c && decide (c.val < 0x80)

/-- A single character matching `[^a-zA-Z0-9 ]` of `reHasUnicodeWord`. -/
def uwBadChar (c : Char) : Bool := !(isAlnumA c || c = ' ')

/-- A two-character match of `reHasUnicodeWord`: `[a-z][A-Z]`, `[0-9][a-zA-Z]`
or `[a-zA-Z][0-9]`. -/
def uwPair (a b : Char) : Bool :=
  (isLowerA a && isUpperA b) || (isDigitA a && isLetterA b) || (isLetterA a && isDigitA b)

/-- The three-character match `[A-Z]{2}[a-z]` of `reHasUnicodeWord`. -/
def uwTriple (a b c : Char) : Bool := isUpperA a && isUpperA b && isLowerA c

/-- lodash `hasUnicodeWord`: does
`/[a-z][A-Z]|[A-Z]{2}[a-z]|[0-9][a-zA-Z]|[a-zA-Z][0-9]|[^a-zA-Z0-9 ]/`
match somewhere in the string? -/
def hasUnicodeWord : List Char → Bool
  | [] => false
  | c :: rest =>
    uwBadChar c
      || (match rest with
          | [] => false
          | c2 :: rest2 =>
            uwPair c c2
              || (match rest2 with
                  | c3 :: _ => uwTriple c c2 c3
                  | [] => false))
      || hasUnicodeWord rest

/-- Maximal runs of characters satisfying `p` (the semantics of a global
match of `/[class]+/g`).  The fuel argument only bounds the recursion; each
step consumes at least one character, so `collectRuns` hands it the
string's length. -/
def collectRunsGo (p : Char → Bool) : Nat → List Char → List (List Char)
  | 0, _ => []
  | _, [] => []
  | fuel + 1, c :: rest =>
    if p c then (c :: rest.takeWhile p) :: collectRunsGo p fuel (rest.dropWhile p)
    else collectRunsGo p fuel rest

/-- Maximal runs of characters satisfying `p` over the whole string. -/
def collectRuns (p : Char → Bool) (cs : List Char) : List (List Char) :=
  collectRunsGo p cs.length cs

/-- lodash `asciiWords`: `string.match(reAsciiWord)`. -/
def asciiWords (cs : List Char) : List String :=
  (collectRuns isAsciiWordChar cs).map (fun run => String.mk run)

/-- Length of the maximal prefix of characters satisfying `p`. -/
def countWhile (p : Char → Bool) : List Char → Nat
  | [] => 0
  | c :: rest => if p c then countWhile p rest + 1 else 0

/-- First `reUnicodeWord` alternative, ASCII form:
`[A-Z]?[a-z]+(?=[break]|[A-Z]|$)`.  The greedy lower-case run only survives
backtracking when the character after the maximal run is not a lower-case
letter (automatic) and not a digit (the look-ahead). -/
def uwAlt1 (cs : List Char) : Option Nat :=
  let tryLower (pre : Nat) (l : List Char) : Option Nat :=
    let k := countWhile isLowerA l
    if k = 0 then none
    else
      match l.drop k with
      | [] => some (pre + k)
      | d :: _ => if isBreakA d || isUpperA d then some (pre + k) else none
  match cs with
  | [] => none
  | c :: rest =>
    if isUpperA c then
      match tryLower 1 rest with
      | some n => some n
      | none => tryLower 0 cs
    else tryLower 0 cs

/-- Look-ahead of the second `reUnicodeWord` alternative:
`(?=[break]|[A-Z][a-z]|$)`. -/
def uwLook2 : List Char → Bool
  | [] => true
  | c :: rest =>
    isBreakA c
      || (isUpperA c && (match rest with
          | c2 :: _ => isLowerA c2
          | [] => false))

/-- Backtracking search for the longest `j ≤ m`, `j ≥ 1`, whose suffix
passes `uwLook2`. -/
def uwAlt2Go (cs : List Char) : Nat → Option Nat
  | 0 => none
  | j + 1 => if uwLook2 (cs.drop (j + 1)) then some (j + 1) else uwAlt2Go cs j

/-- Second `reUnicodeWord` alternative, ASCII form:
`[A-Z]+(?=[break]|[A-Z][a-z]|$)` (the `rsMiscUpper` class collapses to
`[A-Z]` over ASCII). -/
def uwAlt2 (cs : List Char) : Option Nat :=
  uwAlt2Go cs (countWhile isUpperA cs)

/-- Third `reUnicodeWord` alternative, ASCII form: `[A-Z]?[a-z]+` with no
look-ahead (`rsMiscLower` collapses to `[a-z]` over ASCII). -/
def uwAlt3 (cs : List Char) : Option Nat :=
  match cs with
  | [] => none
  | c :: rest =>
    if isUpperA c then
      let k := countWhile isLowerA rest
      if k = 0 then none else some (1 + k)
    else
      let k := countWhile isLowerA cs
      if k = 0 then none else some k

/-- Fourth `reUnicodeWord` alternative: `[A-Z]+`. -/
def uwAlt4 (cs : List Char) : Option Nat :=
  let k := countWhile isUpperA cs
  if k = 0 then none else some k

/-- The ordinal group `(?:1st|2nd|3rd|(?![123])\dth)` (lower case) or
`(?:1ST|2ND|3RD|(?![123])\dTH)` (upper case): match length if it matches at
the head. -/
def uwOrdSuffix (low : Bool) : List Char → Option Nat
  | c1 :: c2 :: c3 :: _ =>
    let s2 := if low then 's' else 'S'
    let t2 := if low then 't' else 'T'
    let n2 := if low then 'n' else 'N'
    let d2 := if low then 'd' else 'D'
    let r2 := if low then 'r' else 'R'
    let h2 := if low then 'h' else 'H'
    if c1 = '1' && c2 = s2 && c3 = t2 then some 3
    else if c1 = '2' && c2 = n2 && c3 = d2 then some 3
    else if c1 = '3' && c2 = r2 && c3 = d2 then some 3
    else if isDigitA c1 && !(c1 = '1' || c1 = '2' || c1 = '3') && c2 = t2 && c3 = h2 then some 3
    else none
  | _ => none

/-- Is `c` a regex word character `[A-Za-z0-9_]`? -/
def isWordChar (c : Char) : Bool := isAlnumA c || c = '_'

/-- Ordinal look-ahead `(?=\b|[a-z_])` (after an upper-case ordinal) or
`(?=\b|[A-Z_])` (after a lower-case ordinal). -/
def uwOrdLook (low : Bool) : List Char → Bool
  | [] => true
  | c :: _ =>
    !isWordChar c || c = '_' || (if low then isUpperA c else isLowerA c)

/-- Greedy-with-backtracking digit prefix of the ordinal alternatives
`\d*(?:ordinal)(?=...)`: try the longest digit prefix first. -/
def uwOrdGo (low : Bool) (cs : List Char) : Nat → Option Nat
  | 0 =>
    (match uwOrdSuffix low cs with
     | some slen => if uwOrdLook low (cs.drop slen) then some slen else none
     | none => none)
  | j + 1 =>
    (match uwOrdSuffix low (cs.drop (j + 1)) with
     | some slen =>
       if uwOrdLook low (cs.drop (j + 1 + slen)) then some (j + 1 + slen)
       else uwOrdGo low cs j
     | none => uwOrdGo low cs j)

/-- Fifth/sixth `reUnicodeWord` alternatives (`rsOrdUpper`, `rsOrdLower`). -/
def uwOrd (low : Bool) (cs : List Char) : Option Nat :=
  uwOrdGo low cs (countWhile isDigitA cs)

/-- Seventh `reUnicodeWord` alternative: `\d+`. -/
def uwAlt7 (cs : List Char) : Option Nat :=
  let k := countWhile isDigitA cs
  if k = 0 then none else some k

/-- One attempt of `reUnicodeWord` at the current position: the alternatives
in the regex's order (the emoji alternative never matches ASCII input). -/
def uwMatchAt (cs : List Char) : Option Nat :=
  match uwAlt1 cs with
  | some n => some n
  | none =>
    match uwAlt2 cs with
    | some n => some n
    | none =>
      match uwAlt3 cs with
      | some n => some n
      | none =>
        match uwAlt4 cs with
        | some n => some n
        | none =>
          match uwOrd false cs with
          | some n => some n
          | none =>
            match uwOrd true cs with
            | some n => some n
            | none => uwAlt7 cs

/-- Global matching of `reUnicodeWord`: take the match at the current
position if any, else advance one character (a match of length 0 is treated
as no match; every alternative in fact matches at least one character).
The fuel argument only bounds the recursion; each step consumes at least
one character, so `uwScan` hands it the string's length. -/
def uwScanGo : Nat → List Char → List String
  | 0, _ => []
  | _, [] => []
  | fuel + 1, c :: rest =>
    match uwMatchAt (c :: rest) with
    | some n =>
      if 0 < n then String.mk ((c :: rest).take n) :: uwScanGo fuel ((c :: rest).drop n)
      else uwScanGo fuel rest
    | none => uwScanGo fuel rest

/-- Global matching of `reUnicodeWord` over the whole string. -/
def uwScan (cs : List Char) : List String :=
  uwScanGo cs.length cs

/-- lodash `words(string)` (no explicit pattern), for ASCII strings. -/
def words (s : String) : List String :=
  if hasUnicodeWord s.data then uwScan s.data else asciiWords s.data

/-! ### Node `EventEmitter` primitives

The base-class methods the source delegates to.  Only the behaviour for
ordinary event names is modelled (see the header). -/

namespace EventEmitter

/-- Append a listener to a name's list, creating the entry if absent
(`EventEmitter.prototype.on`).  Node ignores any arguments after the
listener, so the source's extra `...args` never reach the table. -/
def tableAdd : List (String × List Listener) → String → Listener → List (String × List Listener)
  | [], n, l => [(n, [l])]
  | (k, ls) :: rest, n, l =>
    if k = n then (k, ls ++ [l]) :: rest else (k, ls) :: tableAdd rest n l

/-- `EventEmitter.prototype.on(name, handler)`. -/
def «on» (b : Bus) (name : String) (handler : Listener) : Bus :=
  { b with table := tableAdd b.table name handler }

/-- `emitter.removeAllListeners()` / `emitter.removeAllListeners(name)`.
Node's method takes at most the one optional event name; any further
argument is ignored by the callee. -/
def removeAllListeners (b : Bus) : Option String → Bus
  | none => { b with table := [] }
  | some n => { b with table := b.table.filter (fun e => !(e.1 = n)) }

/-- `emitter.removeAllListeners(name, extra)` as the source calls it: the
second argument is silently dropped by Node. -/
def removeAllListeners2 (b : Bus) (name : String) (_extra : Listener) : Bus :=
  removeAllListeners b (some name)

/-- Look a name up in the table (`events[name] ?? []`). -/
def tableGet : List (String × List Listener) → String → List Listener
  | [], _ => []
  | (k, ls) :: rest, n => if k = n then ls else tableGet rest n

/-- `emitter.listeners(name)`: a copy of the name's listener list. -/
def listeners (b : Bus) (name : String) : List Listener :=
  tableGet b.table name

end EventEmitter

/-- When a function object is used where Node expects an event name (the
source's `removeAllListeners(listener)` call), the property lookup coerces
it with `String(fn)`.  The resulting key contains punctuation and spaces,
so it can never equal a key produced by `words` (those are runs of word
characters); the concrete string below stands for that coerced form. -/
def fnKey (_l : Listener) : String := "function anonymous() [native model]"

/-- Record one underlying-callback invocation in the ghost log. -/
def pushLog (b : Bus) (e : Entry) : Bus :=
  { b with log := b.log ++ [e] }

namespace Events

/--
`Events#off(nameOrNames, listener)`:

```js
if (nameOrNames == null) {
  return listener == null
    ? this.removeAllListeners()
    : this.removeAllListeners(listener);
}
each(words(nameOrNames), listener == null
  ? name => this.removeAllListeners(name)
  : name => this.removeAllListeners(name, listener));
return this;
```

`removeAllListeners(listener)` uses the function itself as the event-name
key (modelled by `fnKey`), and `removeAllListeners(name, listener)` drops
its second argument, so both per-name branches remove the whole name. -/
def off (b : Bus) (nameOrNames : Option String) (listener : Option Listener) : Bus :=
  match nameOrNames with
  | none =>
    match listener with
    | none => EventEmitter.removeAllListeners b none
    | some l => EventEmitter.removeAllListeners b (some (fnKey l))
  | some nm =>
    match listener with
    | none => (words nm).foldl (fun b name => EventEmitter.removeAllListeners b (some name)) b
    | some l => (words nm).foldl (fun b name => EventEmitter.removeAllListeners2 b name l) b

end Events

/-- The `arguments` object of the `Events#once(name, callback, context)`
frame: the arrow function inside `once` closes over the *method's*
`arguments`, so these — not the trigger arguments — are what the wrapped
callback receives. -/
def onceArguments (nm : String) (cbId : Nat) (ctx : Option JsVal) : List JsVal :=
  [JsVal.str nm, JsVal.fn cbId] ++ (match ctx with | some v => [v] | none => [])

/-- The result of calling one listener: the bus after the call's side
effects, and either a return value or a synchronously thrown error. -/
structure CallOut where
  bus : Bus
  res : Except JsVal Ret
deriving Repr

/-- Invoke one listener with the given arguments (`this` is the bus).

* `plain` callbacks just run: the call is logged, then the callback's
  `Outcome` determines the return/throw.
* `wrap` is the `_.once(() => { this.off(name, once); return
  callback.apply(this, arguments); })` adapter.  If its flag was already
  consumed it returns the memoised result without side effects (lodash
  `before(2, f)` decrements its counter before calling `f`, so a throwing
  first call still consumes the flag and leaves the cached result
  `undefined`).  Otherwise it consumes the flag, removes listeners via
  `Events.off` with the full registration name, and calls the underlying
  callback with the enclosing method's `arguments` (see `onceArguments`). -/
def call (b : Bus) (l : Listener) (args : List JsVal) : CallOut :=
  match l with
  | .plain id out =>
    let b1 := pushLog b ⟨id, args, none⟩
    match out with
    | .value v => ⟨b1, .ok (.val v)⟩
    | .resolveLater v => ⟨b1, .ok (.promiseResolve v)⟩
    | .rejectLater e => ⟨b1, .ok (.promiseReject e)⟩
    | .throwSync e => ⟨b1, .error e⟩
  | .wrap nm cbId cbOut ctx uid =>
    if uid ∈ b.called then
      ⟨b, .ok (((b.cache.lookup uid).getD (.val JsVal.undef)))⟩
    else
      let b1 := { b with called := uid :: b.called }
      let b2 := Events.off b1 (some nm) (some l)
      let b3 := pushLog b2 ⟨cbId, onceArguments nm cbId ctx, some uid⟩
      match cbOut with
      | .value v => ⟨{ b3 with cache := (uid, .val v) :: b3.cache }, .ok (.val v)⟩
      | .resolveLater v =>
        ⟨{ b3 with cache := (uid, .promiseResolve v) :: b3.cache }, .ok (.promiseResolve v)⟩
      | .rejectLater e =>
        ⟨{ b3 with cache := (uid, .promiseReject e) :: b3.cache }, .ok (.promiseReject e)⟩
      | .throwSync e => ⟨b3, .error e⟩

/-- The bus after a dispatch plus the error it threw, if any. -/
structure EmitOut where
  bus : Bus
  exn : Option JsVal
deriving Repr

/-- Iterate an already-taken snapshot of a listener list, stopping at the
first synchronous throw (which propagates). -/
def emitFold (args : List JsVal) : Bus → List Listener → EmitOut
  | b, [] => ⟨b, none⟩
  | b, l :: rest =>
    match call b l args with
    | ⟨b1, .ok _⟩ => emitFold args b1 rest
    | ⟨b1, .error e⟩ => ⟨b1, some e⟩

/-- `EventEmitter.prototype.emit(name, ...args)` for an ordinary name:
copy the current handler list for `name`, then invoke each in registration
order; a throwing listener aborts the rest of the copy. -/
def emit (b : Bus) (name : String) (args : List JsVal) : EmitOut :=
  emitFold args b (EventEmitter.tableGet b.table name)

/-- `for (const name of nameOrNames)`: the trigger argument is any JS
iterable.  An array iterates its elements; a string iterates its
characters, each yielded as a one-character string. -/
inductive TriggerIter where
  | ofString (s : String)
  | ofList (l : List String)
deriving DecidableEq, Repr

/-- The sequence of names `for...of` yields for a trigger argument. -/
def iterNames : TriggerIter → List String
  | .ofString s => s.data.map (fun c => String.mk [c])
  | .ofList l => l

/-- Emit each name in turn; an uncaught listener exception aborts delivery
to the remaining names. -/
def triggerFold (args : List JsVal) : Bus → List String → EmitOut
  | b, [] => ⟨b, none⟩
  | b, n :: rest =>
    match emit b n args with
    | ⟨b1, none⟩ => triggerFold args b1 rest
    | out => out

namespace Events

/-- `Events#trigger(nameOrNames, ...args)`: emit every name the iterable
yields, forwarding the trailing arguments; returns `this` (here: the
updated bus, with the propagated exception if a listener threw). -/
def trigger (b : Bus) (nameOrNames : TriggerIter) (args : List JsVal) : EmitOut :=
  triggerFold args b (iterNames nameOrNames)

/-- `Events#on(nameOrNames, handler, ...args)`: register the handler under
every `words` token; the extra arguments are forwarded to Node's `on`,
which ignores them.  Returns `this`. -/
def «on» (b : Bus) (nameOrNames : String) (handler : Listener) : Bus :=
  (words nameOrNames).foldl (fun b name => EventEmitter.«on» b name handler) b

/-- `Events#once(name, callback, context)`: build the `_.once` wrapper
(modelled by `Listener.wrap` with a fresh closure id), tag it with
`_callback` (the wrapper carries `cbId`), and register it through
`Events.on` — which hands `context` to Node's `on`, where it is dropped. -/
def once (b : Bus) (name : String) (cbId : Nat) (cbOut : Outcome) (ctx : Option JsVal) : Bus :=
  let w := Listener.wrap name cbId cbOut ctx b.nextUid
  let b1 := { b with nextUid := b.nextUid + 1 }
  Events.«on» b1 name w

end Events

/-- The settled state of the aggregate promise `triggerThen` returns. -/
inductive Agg where
  | resolved (vs : List JsVal)
  | rejected (e : JsVal)
deriving DecidableEq, Repr

/-- Modelled from the spec: `Promise.map` of the `./promise` module (the
module itself is not under `src/`; per §4.4 the aggregate invokes each
listener with the arguments, collects each result — plain value or
asynchronous completion — and "completes only after every listener's
result has settled", succeeding with "the ordered sequence of resolved
values (order matches invocation order)" and failing with the first
failure, after which "outstanding listener results that have not yet
settled are not awaited further").  Concretely: the mapper is applied to
the listeners in order; a synchronous throw rejects the aggregate at once
and stops mapping; a listener that returns a later-rejecting promise does
not stop the mapping of subsequent listeners, but its failure — the first
to settle if no synchronous throw occurs — rejects the aggregate. -/
def promiseMapGo (args : List JsVal) :
    Bus → List Listener → List JsVal → Option JsVal → Bus × Agg
  | b, [], acc, none => (b, .resolved acc)
  | b, [], _, some e => (b, .rejected e)
  | b, l :: rest, acc, firstRej =>
    match call b l args with
    | ⟨b1, .error e⟩ => (b1, .rejected e)
    | ⟨b1, .ok (.val v)⟩ => promiseMapGo args b1 rest (acc ++ [v]) firstRej
    | ⟨b1, .ok (.promiseResolve v)⟩ => promiseMapGo args b1 rest (acc ++ [v]) firstRej
    | ⟨b1, .ok (.promiseReject e)⟩ =>
      promiseMapGo args b1 rest acc (match firstRej with | none => some e | some e0 => some e0)

/-- Modelled from the spec: `Promise.map(listeners, listener =>
listener.apply(this, args))` (see `promiseMapGo`). -/
def promiseMap (b : Bus) (ls : List Listener) (args : List JsVal) : Bus × Agg :=
  promiseMapGo args b ls [] none

namespace Events

/-- `Events#triggerThen(nameOrNames, ...args)`:

```js
const names = words(nameOrNames);
const listeners = flatMap(names, this.listeners, this);
return Promise.map(listeners, listener => listener.apply(this, args));
```

`flatMap = flow(map, flatten)`, with the third argument binding
`this.listeners` to the instance, so the snapshot is the concatenation of
the per-name listener lists, taken before any listener runs. -/
def triggerThen (b : Bus) (nameOrNames : String) (args : List JsVal) : Bus × Agg :=
  let names := words nameOrNames
  let listenerSnapshot := (names.map (fun n => EventEmitter.listeners b n)).flatten
  promiseMap b listenerSnapshot args

end Events

/-! ### Client operation language

An arbitrary sequence of public-API calls, used to state properties that
quantify over "any number of subsequent calls". -/

/-- One public-API call on the bus. -/
inductive Op where
  | opOn (nm : String) (l : Listener)
  | opOff (nm : Option String) (l : Option Listener)
  | opTrigger (it : TriggerIter) (args : List JsVal)
  | opTriggerThen (nm : String) (args : List JsVal)
  | opOnce (nm : String) (cbId : Nat) (cbOut : Outcome) (ctx : Option JsVal)
deriving Repr

/-- Execute one public-API call, keeping the bus state it leaves behind
(exceptions propagate to the caller but leave the same state). -/
def stepOp (b : Bus) : Op → Bus
  | .opOn nm l => Events.«on» b nm l
  | .opOff nm l => Events.off b nm l
  | .opTrigger it args => (Events.trigger b it args).bus
  | .opTriggerThen nm args => (Events.triggerThen b nm args).1
  | .opOnce nm cbId cbOut ctx => Events.once b nm cbId cbOut ctx

/-- Execute a sequence of public-API calls. -/
def runOps (b : Bus) (ops : List Op) : Bus :=
  ops.foldl stepOp b

/-- Ghost observation: how many log entries were produced by the once
wrapper with closure id `uid` (i.e. how often its underlying callback ran
through it). -/
def wrapCalls (b : Bus) (uid : Nat) : Nat :=
  (b.log.filter (fun e => e.via = some uid)).length

/-- `wrapCalls` plus the wrapper's remaining budget: 1 while its `_.once`
flag is unconsumed, 0 afterwards.  Every API call preserves this quantity,
which is what bounds the wrapper's deliveries by one. -/
def onceBudget (b : Bus) (uid : Nat) : Nat :=
  wrapCalls b uid + (if uid ∈ b.called then 0 else 1)

/-! ### Spec-side observation functions

Pure functions used to *state* claims; each is written from the spec's
words, to be compared with what the embedded code computes. -/

/-- A plain (caller-supplied, non-wrapper) listener. -/
def isPlainL : Listener → Bool
  | .plain _ _ => true
  | .wrap _ _ _ _ _ => false

/-- A plain listener that does not throw synchronously when invoked. -/
def plainOk : Listener → Bool
  | .plain _ (.throwSync _) => false
  | .plain _ _ => true
  | .wrap _ _ _ _ _ => false

/-- A plain listener whose invocation succeeds (plain value or resolving
asynchronous result). -/
def listenerGood : Listener → Bool
  | .plain _ (.value _) => true
  | .plain _ (.resolveLater _) => true
  | _ => false

/-- The callback id of a plain listener. -/
def plainId : Listener → Nat
  | .plain id _ => id
  | .wrap _ cbId _ _ _ => cbId

/-- The resolved value a succeeding plain listener contributes. -/
def listenerVal : Listener → JsVal
  | .plain _ (.value v) => v
  | .plain _ (.resolveLater v) => v
  | _ => JsVal.undef

/-- The log entry an invocation of a plain listener produces. -/
def entryOf (l : Listener) (args : List JsVal) : Entry :=
  ⟨plainId l, args, none⟩

/-- Spec side, §4.3: the invocations a `trigger` call must produce — for
each name in order, each currently-registered listener in registration
order, called with the trailing arguments. -/
def triggerLogSpec (table : List (String × List Listener)) (names : List String)
    (args : List JsVal) : List Entry :=
  (names.map (fun n => (EventEmitter.tableGet table n).map (fun l => entryOf l args))).flatten

/-- The error of the first listener (in invocation order) that throws
synchronously, if any. -/
def firstThrow : List Listener → Option JsVal
  | [] => none
  | .plain _ (.throwSync e) :: _ => some e
  | _ :: rest => firstThrow rest

/-- The error of the first listener (in invocation order) whose
asynchronous result fails, if any. -/
def firstReject : List Listener → Option JsVal
  | [] => none
  | .plain _ (.rejectLater e) :: _ => some e
  | _ :: rest => firstReject rest

/-- Spec side, §4.4: the failure that settles first.  Synchronous throws
settle during the mapping loop itself, before any pending asynchronous
rejection is observed, so the first synchronous throw wins; otherwise the
first rejecting asynchronous result (in attachment order) does.  `fr`
carries a rejection already observed before the remaining listeners. -/
def specAggFailure (fr : Option JsVal) (ls : List Listener) : Option JsVal :=
  match firstThrow ls with
  | some e => some e
  | none =>
    match fr with
    | some e0 => some e0
    | none => firstReject ls

/-- Spec side, §4.4: the first failure of a listener sequence. -/
def specFirstFailure (ls : List Listener) : Option JsVal :=
  specAggFailure none ls

/-- Spec side, §3 "Event Name": a whitespace character for the claimed
"split at runs of one-or-more whitespace characters" rule. -/
def isSpecWhitespace (c : Char) : Bool :=
  c = ' ' || c = '\t' || c = '\n' || c = '\r'

/-- Spec side, §3 "Event Name": the name string split into its maximal
whitespace-delimited substrings, whatever characters they contain. -/
def wsTokensSpec (s : String) : List String :=
  (collectRuns (fun c => !isSpecWhitespace c) s.data).map (fun run => String.mk run)

/-- The "simple name" alphabet: blanks and single-case alphabetic
characters.  On names drawn from it, lodash `words` and the spec's
whitespace-run splitting agree. -/
def simpleNameChars : List Char :=
  [' ', 'a', 'b', 'c', 'd', 'e', 'f', 'g', 'h', 'i', 'j', 'k', 'l', 'm',
   'n', 'o', 'p', 'q', 'r', 's', 't', 'u', 'v', 'w', 'x', 'y', 'z']

/-! ## Theorems -/

/-! ### Preservation lemmas

`onceBudget` — deliveries already made through a wrapper plus its unspent
flag — is left unchanged by every operation of the API, which is what
bounds once-delivery. -/

theorem foldl_log_called (g : Bus → String → Bus)
    (hg : ∀ b n, (g b n).log = b.log ∧ (g b n).called = b.called) :
    ∀ (ns : List String) (b : Bus),
      (ns.foldl g b).log = b.log ∧ (ns.foldl g b).called = b.called := by
  intro ns
  induction ns with
  | nil => intro b; exact ⟨rfl, rfl⟩
  | cons n ns ih =>
    intro b
    rw [List.foldl_cons]
    exact ⟨((ih (g b n)).1).trans (hg b n).1, ((ih (g b n)).2).trans (hg b n).2⟩

theorem off_log_called (b : Bus) (nm : Option String) (l : Option Listener) :
    (Events.off b nm l).log = b.log ∧ (Events.off b nm l).called = b.called := by
  cases nm with
  | none => cases l <;> exact ⟨rfl, rfl⟩
  | some nm =>
    cases l with
    | none =>
      simp only [Events.off]
      exact foldl_log_called (fun b name => EventEmitter.removeAllListeners b (some name))
        (fun b n => ⟨rfl, rfl⟩) (words nm) b
    | some l =>
      simp only [Events.off]
      exact foldl_log_called (fun b name => EventEmitter.removeAllListeners2 b name l)
        (fun b n => ⟨rfl, rfl⟩) (words nm) b

theorem onceBudget_congr (b b' : Bus) (uid : Nat)
    (hl : b'.log = b.log) (hc : b'.called = b.called) :
    onceBudget b' uid = onceBudget b uid := by
  simp [onceBudget, wrapCalls, hl, hc]

theorem wrapCalls_pushLog (b : Bus) (e : Entry) (uid : Nat) :
    wrapCalls (pushLog b e) uid
      = wrapCalls b uid + (if e.via = some uid then 1 else 0) := by
  simp only [wrapCalls, pushLog, List.filter_append, List.length_append]
  by_cases h : e.via = some uid <;> simp [h]

theorem call_wrap_fresh (b : Bus) (nm : String) (cbId : Nat) (cbOut : Outcome)
    (ctx : Option JsVal) (uid : Nat) (args : List JsVal) (h : uid ∉ b.called) :
    (call b (.wrap nm cbId cbOut ctx uid) args).bus.log
        = b.log ++ [⟨cbId, onceArguments nm cbId ctx, some uid⟩]
      ∧ (call b (.wrap nm cbId cbOut ctx uid) args).bus.called = uid :: b.called := by
  have hoff := off_log_called { b with called := uid :: b.called } (some nm)
      (some (.wrap nm cbId cbOut ctx uid))
  cases cbOut <;> simp [call, h, pushLog, hoff.1, hoff.2]

theorem onceBudget_call (b : Bus) (l : Listener) (args : List JsVal) (uid : Nat) :
    onceBudget (call b l args).bus uid = onceBudget b uid := by
  cases l with
  | plain id out =>
    cases out <;> simp [call, onceBudget, wrapCalls_pushLog, pushLog, wrapCalls]
  | wrap nm cbId cbOut ctx uid' =>
    by_cases hmem : uid' ∈ b.called
    · simp [call, hmem]
    · obtain ⟨hlog, hcalled⟩ := call_wrap_fresh b nm cbId cbOut ctx uid' args hmem
      simp only [onceBudget, wrapCalls, hlog, hcalled, List.filter_append,
        List.length_append]
      by_cases huid : uid' = uid
      · subst huid
        simp [hmem]
      · have hmm : (uid ∈ uid' :: b.called) ↔ (uid ∈ b.called) := by
          simp only [List.mem_cons, or_iff_right_iff_imp]
          intro h
          exact absurd h.symm huid
        simp [hmm, huid]

theorem onceBudget_emitFold (args : List JsVal) (uid : Nat) :
    ∀ (ls : List Listener) (b : Bus),
      onceBudget (emitFold args b ls).bus uid = onceBudget b uid := by
  intro ls
  induction ls with
  | nil => intro b; rfl
  | cons l rest ih =>
    intro b
    have hc := onceBudget_call b l args uid
    rcases hcall : call b l args with ⟨b1, res⟩
    rw [hcall] at hc
    cases res with
    | ok r =>
      simp only [emitFold, hcall]
      rw [ih b1]
      exact hc
    | error e =>
      simp only [emitFold, hcall]
      exact hc

theorem onceBudget_triggerFold (args : List JsVal) (uid : Nat) :
    ∀ (ns : List String) (b : Bus),
      onceBudget (triggerFold args b ns).bus uid = onceBudget b uid := by
  intro ns
  induction ns with
  | nil => intro b; rfl
  | cons n rest ih =>
    intro b
    have hc := onceBudget_emitFold args uid (EventEmitter.tableGet b.table n) b
    rcases hemit : emitFold args b (EventEmitter.tableGet b.table n) with ⟨b1, ex⟩
    rw [hemit] at hc
    cases ex with
    | none =>
      simp only [triggerFold, emit, hemit]
      rw [ih b1]
      exact hc
    | some e =>
      simp only [triggerFold, emit, hemit]
      exact hc

theorem onceBudget_promiseMapGo (args : List JsVal) (uid : Nat) :
    ∀ (ls : List Listener) (b : Bus) (acc : List JsVal) (fr : Option JsVal),
      onceBudget (promiseMapGo args b ls acc fr).1 uid = onceBudget b uid := by
  intro ls
  induction ls with
  | nil => intro b acc fr; cases fr <;> rfl
  | cons l rest ih =>
    intro b acc fr
    have hc := onceBudget_call b l args uid
    rcases hcall : call b l args with ⟨b1, res⟩
    rw [hcall] at hc
    cases res with
    | ok r =>
      cases r <;> simp only [promiseMapGo, hcall] <;> rw [ih b1] <;> exact hc
    | error e =>
      simp only [promiseMapGo, hcall]
      exact hc

theorem onceBudget_on (b : Bus) (nm : String) (l : Listener) (uid : Nat) :
    onceBudget (Events.«on» b nm l) uid = onceBudget b uid := by
  have h := foldl_log_called (fun b n => EventEmitter.«on» b n l)
    (fun b n => ⟨rfl, rfl⟩) (words nm) b
  exact onceBudget_congr b _ uid h.1 h.2

theorem onceBudget_off (b : Bus) (nm : Option String) (l : Option Listener) (uid : Nat) :
    onceBudget (Events.off b nm l) uid = onceBudget b uid := by
  have h := off_log_called b nm l
  exact onceBudget_congr b _ uid h.1 h.2

theorem onceBudget_once (b : Bus) (nm : String) (cbId : Nat) (cbOut : Outcome)
    (ctx : Option JsVal) (uid : Nat) :
    onceBudget (Events.once b nm cbId cbOut ctx) uid = onceBudget b uid := by
  simp only [Events.once]
  rw [onceBudget_on]
  rfl

theorem onceBudget_stepOp (b : Bus) (op : Op) (uid : Nat) :
    onceBudget (stepOp b op) uid = onceBudget b uid := by
  cases op with
  | opOn nm l => exact onceBudget_on b nm l uid
  | opOff nm l => exact onceBudget_off b nm l uid
  | opTrigger it args => exact onceBudget_triggerFold args uid (iterNames it) b
  | opTriggerThen nm args =>
    exact onceBudget_promiseMapGo args uid _ b [] none
  | opOnce nm cbId cbOut ctx => exact onceBudget_once b nm cbId cbOut ctx uid

theorem onceBudget_runOps (uid : Nat) :
    ∀ (ops : List Op) (b : Bus), onceBudget (runOps b ops) uid = onceBudget b uid := by
  intro ops
  induction ops with
  | nil => intro b; rfl
  | cons op ops ih =>
    intro b
    show onceBudget (runOps (stepOp b op) ops) uid = _
    rw [ih (stepOp b op), onceBudget_stepOp]

/-- C2: after `once(x, fn)`, across any further sequence of API calls
(triggers included), the underlying callback is delivered through the
created `_.once` wrapper at most one time: the wrapper's delivery count
never exceeds 1, so a second invocation of the wrapper never re-invokes
the callback. -/
theorem claim_C2_at_most_once (b : Bus) (nm : String) (cbId : Nat) (cbOut : Outcome)
    (ctx : Option JsVal) (ops : List Op)
    (hlog : wrapCalls b b.nextUid = 0) (hcalled : b.nextUid ∉ b.called) :
    wrapCalls (runOps (Events.once b nm cbId cbOut ctx) ops) b.nextUid ≤ 1 := by
  have h1 : onceBudget (Events.once b nm cbId cbOut ctx) b.nextUid = 1 := by
    rw [onceBudget_once]
    simp [onceBudget, hlog, hcalled]
  have h2 := onceBudget_runOps b.nextUid ops (Events.once b nm cbId cbOut ctx)
  have h3 : wrapCalls (runOps (Events.once b nm cbId cbOut ctx) ops) b.nextUid
      ≤ onceBudget (runOps (Events.once b nm cbId cbOut ctx) ops) b.nextUid :=
    Nat.le_add_right _ _
  omega

/-! ### Dispatch characterization for plain listeners -/

theorem emitFold_plain (args : List JsVal) :
    ∀ (ls : List Listener) (b : Bus), (∀ l ∈ ls, plainOk l = true) →
      emitFold args b ls
        = ⟨{ b with log := b.log ++ ls.map (fun l => entryOf l args) }, none⟩ := by
  intro ls
  induction ls with
  | nil => intro b _; simp [emitFold]
  | cons l rest ih =>
    intro b h
    have hl := h l (List.mem_cons_self l rest)
    have hrest : ∀ x ∈ rest, plainOk x = true :=
      fun x hx => h x (List.mem_cons_of_mem l hx)
    cases l with
    | wrap nm cbId cbOut ctx uid => simp [plainOk] at hl
    | plain id out =>
      cases out with
      | throwSync e => simp [plainOk] at hl
      | value v =>
        simp only [emitFold, call]
        rw [ih _ hrest]
        simp [pushLog, entryOf, plainId]
      | resolveLater v =>
        simp only [emitFold, call]
        rw [ih _ hrest]
        simp [pushLog, entryOf, plainId]
      | rejectLater e =>
        simp only [emitFold, call]
        rw [ih _ hrest]
        simp [pushLog, entryOf, plainId]

theorem triggerFold_plain (args : List JsVal) :
    ∀ (ns : List String) (b : Bus),
      (∀ n ∈ ns, ∀ l ∈ EventEmitter.tableGet b.table n, plainOk l = true) →
      triggerFold args b ns
        = ⟨{ b with log := b.log ++ triggerLogSpec b.table ns args }, none⟩ := by
  intro ns
  induction ns with
  | nil => intro b _; simp [triggerFold, triggerLogSpec]
  | cons n rest ih =>
    intro b h
    have hn := h n (List.mem_cons_self n rest)
    have hemit := emitFold_plain args (EventEmitter.tableGet b.table n) b hn
    simp only [triggerFold, emit, hemit]
    have hrest : ∀ m ∈ rest, ∀ l ∈ EventEmitter.tableGet b.table m, plainOk l = true :=
      fun m hm l hl => h m (List.mem_cons_of_mem n hm) l hl
    rw [ih (Bus.mk b.table b.called b.cache
        (b.log ++ List.map (fun l => entryOf l args) (EventEmitter.tableGet b.table n))
        b.nextUid) hrest]
    simp [triggerLogSpec, List.append_assoc]

/-- C7: for a trigger call over a list of name tokens whose listeners are
plain and non-throwing, the names are processed in sequence order and, for
each name, every currently-registered listener is invoked in registration
order with the trailing arguments (the produced log is exactly
`triggerLogSpec`); the call returns the bus with no exception and with the
registration table untouched. -/
theorem claim_C7_trigger_order (b : Bus) (names : List String) (args : List JsVal)
    (h : ∀ n ∈ names, ∀ l ∈ EventEmitter.tableGet b.table n, plainOk l = true) :
    Events.trigger b (.ofList names) args
      = ⟨{ b with log := b.log ++ triggerLogSpec b.table names args }, none⟩ :=
  triggerFold_plain args names b h

/-- Witness for C7: two listeners registered in order under `"A"`; the
trigger invokes listener 1 then listener 2 with the forwarded argument. -/
theorem claim_C7_witness :
    (∀ n ∈ ["A"],
        ∀ l ∈ EventEmitter.tableGet
          (Events.«on» (Events.«on» emptyBus "A" (.plain 1 (.value (.num 0))))
            "A" (.plain 2 (.value (.num 0)))).table n, plainOk l = true)
      ∧ Events.trigger
          (Events.«on» (Events.«on» emptyBus "A" (.plain 1 (.value (.num 0))))
            "A" (.plain 2 (.value (.num 0))))
          (.ofList ["A"]) [.num 4]
        = ⟨{ (Events.«on» (Events.«on» emptyBus "A" (.plain 1 (.value (.num 0))))
              "A" (.plain 2 (.value (.num 0)))) with
            log := (Events.«on» (Events.«on» emptyBus "A" (.plain 1 (.value (.num 0))))
              "A" (.plain 2 (.value (.num 0)))).log
              ++ triggerLogSpec
                (Events.«on» (Events.«on» emptyBus "A" (.plain 1 (.value (.num 0))))
                  "A" (.plain 2 (.value (.num 0)))).table ["A"] [.num 4] }, none⟩ :=
  ⟨by decide,
    claim_C7_trigger_order
      (Events.«on» (Events.«on» emptyBus "A" (.plain 1 (.value (.num 0))))
        "A" (.plain 2 (.value (.num 0)))) ["A"] [.num 4] (by decide)⟩

/-! ### Aggregate characterization for `triggerThen` -/

theorem firstThrow_cons_plain (id : Nat) (out : Outcome) (rest : List Listener) :
    firstThrow (.plain id out :: rest)
      = match out with
        | .throwSync e => some e
        | _ => firstThrow rest := by
  cases out <;> rfl

theorem firstReject_cons_plain (id : Nat) (out : Outcome) (rest : List Listener) :
    firstReject (.plain id out :: rest)
      = match out with
        | .rejectLater e => some e
        | _ => firstReject rest := by
  cases out <;> rfl

theorem promiseMapGo_plain (args : List JsVal) :
    ∀ (ls : List Listener) (b : Bus) (acc : List JsVal) (fr : Option JsVal),
      (∀ l ∈ ls, isPlainL l = true) →
      (promiseMapGo args b ls acc fr).2
        = match specAggFailure fr ls with
          | some e => .rejected e
          | none => .resolved (acc ++ ls.map listenerVal) := by
  intro ls
  induction ls with
  | nil =>
    intro b acc fr _
    cases fr <;> simp [promiseMapGo, specAggFailure, firstThrow, firstReject]
  | cons l rest ih =>
    intro b acc fr h
    have hl := h l (List.mem_cons_self l rest)
    have hrest : ∀ x ∈ rest, isPlainL x = true :=
      fun x hx => h x (List.mem_cons_of_mem l hx)
    cases l with
    | wrap nm cbId cbOut ctx uid => simp [isPlainL] at hl
    | plain id out =>
      cases out with
      | throwSync e =>
        simp [promiseMapGo, call, specAggFailure, firstThrow_cons_plain]
      | value v =>
        simp only [promiseMapGo, call]
        rw [ih _ (acc ++ [v]) fr hrest]
        simp [specAggFailure, firstThrow_cons_plain, firstReject_cons_plain,
          listenerVal, List.append_assoc]
      | resolveLater v =>
        simp only [promiseMapGo, call]
        rw [ih _ (acc ++ [v]) fr hrest]
        simp [specAggFailure, firstThrow_cons_plain, firstReject_cons_plain,
          listenerVal, List.append_assoc]
      | rejectLater e =>
        simp only [promiseMapGo, call]
        rw [ih _ acc (match fr with | none => some e | some e0 => some e0) hrest]
        cases hft : firstThrow rest <;> cases fr <;>
          simp [specAggFailure, firstThrow_cons_plain, firstReject_cons_plain, hft]

theorem firstThrow_none_of_good :
    ∀ (ls : List Listener), (∀ l ∈ ls, listenerGood l = true) → firstThrow ls = none := by
  intro ls
  induction ls with
  | nil => intro _; rfl
  | cons l rest ih =>
    intro h
    have hl := h l (List.mem_cons_self l rest)
    have hrest := fun x hx => h x (List.mem_cons_of_mem l hx)
    cases l with
    | wrap nm cbId cbOut ctx uid => simp [listenerGood] at hl
    | plain id out =>
      cases out <;> simp_all [listenerGood, firstThrow_cons_plain, ih hrest]

theorem firstReject_none_of_good :
    ∀ (ls : List Listener), (∀ l ∈ ls, listenerGood l = true) → firstReject ls = none := by
  intro ls
  induction ls with
  | nil => intro _; rfl
  | cons l rest ih =>
    intro h
    have hl := h l (List.mem_cons_self l rest)
    have hrest := fun x hx => h x (List.mem_cons_of_mem l hx)
    cases l with
    | wrap nm cbId cbOut ctx uid => simp [listenerGood] at hl
    | plain id out =>
      cases out <;> simp_all [listenerGood, firstReject_cons_plain, ih hrest]

/-- C5: if every listener in the `triggerThen` snapshot (per-name
registration order, names left to right) succeeds — returns a plain value
or a resolving asynchronous result — the aggregate resolves with the
ordered sequence of their resolved values, in invocation order. -/
theorem claim_C5_resolves_in_order (b : Bus) (nm : String) (args : List JsVal)
    (h : ∀ l ∈ ((words nm).map (fun n => EventEmitter.listeners b n)).flatten,
      listenerGood l = true) :
    (Events.triggerThen b nm args).2
      = .resolved ((((words nm).map (fun n => EventEmitter.listeners b n)).flatten).map
          listenerVal) := by
  have hplain : ∀ l ∈ ((words nm).map (fun n => EventEmitter.listeners b n)).flatten,
      isPlainL l = true := by
    intro l hl
    have := h l hl
    cases l with
    | plain id out => rfl
    | wrap a c d e f => simp [listenerGood] at this
  have hmain := promiseMapGo_plain args
    (((words nm).map (fun n => EventEmitter.listeners b n)).flatten) b [] none hplain
  have hnone : specAggFailure none
      (((words nm).map (fun n => EventEmitter.listeners b n)).flatten) = none := by
    simp [specAggFailure, firstThrow_none_of_good _ h, firstReject_none_of_good _ h]
  rw [hnone] at hmain
  simpa [Events.triggerThen, promiseMap] using hmain

/-- Witness for C5: listeners returning `1` and a promise of `2` under
`"e"`; the aggregate resolves to `[1, 2]` in invocation order. -/
theorem claim_C5_witness :
    (∀ l ∈ ((words "e").map (fun n => EventEmitter.listeners
        (Events.«on» (Events.«on» emptyBus "e" (.plain 1 (.value (.num 1))))
          "e" (.plain 2 (.resolveLater (.num 2)))) n)).flatten, listenerGood l = true)
      ∧ (Events.triggerThen
          (Events.«on» (Events.«on» emptyBus "e" (.plain 1 (.value (.num 1))))
            "e" (.plain 2 (.resolveLater (.num 2)))) "e" [.num 9]).2
        = .resolved [.num 1, .num 2] :=
  ⟨by decide, by
    have := claim_C5_resolves_in_order
      (Events.«on» (Events.«on» emptyBus "e" (.plain 1 (.value (.num 1))))
        "e" (.plain 2 (.resolveLater (.num 2)))) "e" [.num 9] (by decide)
    rw [this]
    decide⟩

/-- C6: if the `triggerThen` snapshot contains a failing listener — one
that throws synchronously or whose asynchronous result rejects — the
aggregate rejects with the first failure to settle (`specFirstFailure`):
the call itself still returns the aggregate, surfacing rather than
swallowing the error. -/
theorem claim_C6_first_failure (b : Bus) (nm : String) (args : List JsVal) (e : JsVal)
    (hplain : ∀ l ∈ ((words nm).map (fun n => EventEmitter.listeners b n)).flatten,
      isPlainL l = true)
    (hfail : specFirstFailure
        (((words nm).map (fun n => EventEmitter.listeners b n)).flatten) = some e) :
    (Events.triggerThen b nm args).2 = .rejected e := by
  have hmain := promiseMapGo_plain args
    (((words nm).map (fun n => EventEmitter.listeners b n)).flatten) b [] none hplain
  rw [specFirstFailure] at hfail
  rw [hfail] at hmain
  simpa [Events.triggerThen, promiseMap] using hmain

/-- Witness for C6: listener 1 throws `"boom"`, listener 2 would resolve
normally; the aggregate rejects with `"boom"`. -/
theorem claim_C6_witness :
    (∀ l ∈ ((words "e").map (fun n => EventEmitter.listeners
        (Events.«on» (Events.«on» emptyBus "e" (.plain 1 (.throwSync (.str "boom"))))
          "e" (.plain 2 (.value (.num 2)))) n)).flatten, isPlainL l = true)
      ∧ specFirstFailure (((words "e").map (fun n => EventEmitter.listeners
          (Events.«on» (Events.«on» emptyBus "e" (.plain 1 (.throwSync (.str "boom"))))
            "e" (.plain 2 (.value (.num 2)))) n)).flatten) = some (.str "boom")
      ∧ (Events.triggerThen
          (Events.«on» (Events.«on» emptyBus "e" (.plain 1 (.throwSync (.str "boom"))))
            "e" (.plain 2 (.value (.num 2)))) "e" []).2
        = .rejected (.str "boom") :=
  ⟨by decide, by decide,
    claim_C6_first_failure
      (Events.«on» (Events.«on» emptyBus "e" (.plain 1 (.throwSync (.str "boom"))))
        "e" (.plain 2 (.value (.num 2)))) "e" [] (.str "boom") (by decide) (by decide)⟩

/-! ### Name splitting: where lodash `words` agrees with whitespace runs -/

theorem takeWhile_congr (p q : Char → Bool) :
    ∀ (l : List Char), (∀ c ∈ l, p c = q c) → l.takeWhile p = l.takeWhile q := by
  intro l
  induction l with
  | nil => intro _; rfl
  | cons c rest ih =>
    intro h
    have hc : p c = q c := h c (List.mem_cons_self c rest)
    have ih' := ih (fun d hd => h d (List.mem_cons_of_mem c hd))
    simp [List.takeWhile_cons, hc, ih']

theorem dropWhile_congr (p q : Char → Bool) :
    ∀ (l : List Char), (∀ c ∈ l, p c = q c) → l.dropWhile p = l.dropWhile q := by
  intro l
  induction l with
  | nil => intro _; rfl
  | cons c rest ih =>
    intro h
    have hc : p c = q c := h c (List.mem_cons_self c rest)
    have ih' := ih (fun d hd => h d (List.mem_cons_of_mem c hd))
    simp [List.dropWhile_cons, hc, ih']

theorem mem_of_mem_dropWhile (p : Char → Bool) :
    ∀ (l : List Char) (c : Char), c ∈ l.dropWhile p → c ∈ l := by
  intro l
  induction l with
  | nil => intro c h; simp at h
  | cons a rest ih =>
    intro c h
    rw [List.dropWhile_cons] at h
    by_cases hp : p a = true
    · simp only [hp, if_true] at h
      exact List.mem_cons_of_mem a (ih c h)
    · simp only [hp, if_false] at h
      exact h

theorem collectRunsGo_congr (p q : Char → Bool) :
    ∀ (fuel : Nat) (cs : List Char), (∀ c ∈ cs, p c = q c) →
      collectRunsGo p fuel cs = collectRunsGo q fuel cs := by
  intro fuel
  induction fuel with
  | zero => intro cs _; cases cs <;> rfl
  | succ fuel ih =>
    intro cs h
    cases cs with
    | nil => rfl
    | cons c rest =>
      have hc : p c = q c := h c (List.mem_cons_self c rest)
      have hrest : ∀ d ∈ rest, p d = q d :=
        fun d hd => h d (List.mem_cons_of_mem c hd)
      simp only [collectRunsGo, hc, takeWhile_congr p q rest hrest,
        dropWhile_congr p q rest hrest,
        ih (rest.dropWhile q) (fun d hd => hrest d (mem_of_mem_dropWhile q rest d hd)),
        ih rest hrest]

theorem collectRuns_congr (p q : Char → Bool) (cs : List Char)
    (h : ∀ c ∈ cs, p c = q c) : collectRuns p cs = collectRuns q cs :=
  collectRunsGo_congr p q cs.length cs h

theorem hasUnicodeWord_false_of_simple :
    ∀ (cs : List Char), (∀ c ∈ cs, c ∈ simpleNameChars) → hasUnicodeWord cs = false := by
  have hbad : ∀ x ∈ simpleNameChars, uwBadChar x = false := by decide
  have hup : ∀ x ∈ simpleNameChars, isUpperA x = false := by decide
  have hpair : ∀ x ∈ simpleNameChars, ∀ y ∈ simpleNameChars, uwPair x y = false := by decide
  intro cs
  induction cs with
  | nil => intro _; rfl
  | cons c rest ih =>
    intro h
    have hc : c ∈ simpleNameChars := h c (List.mem_cons_self c rest)
    have hrest : ∀ d ∈ rest, d ∈ simpleNameChars :=
      fun d hd => h d (List.mem_cons_of_mem c hd)
    simp only [hasUnicodeWord, hbad c hc, ih hrest, Bool.or_false, Bool.false_or]
    cases rest with
    | nil => rfl
    | cons c2 rest2 =>
      have hc2 : c2 ∈ simpleNameChars := hrest c2 (List.mem_cons_self c2 rest2)
      simp only [hpair c hc c2 hc2, Bool.false_or]
      cases rest2 with
      | nil => rfl
      | cons c3 rest3 => simp [uwTriple, hup c hc]

theorem words_eq_wsTokens_of_simple (s : String)
    (h : ∀ c ∈ s.data, c ∈ simpleNameChars) : words s = wsTokensSpec s := by
  have h1 : hasUnicodeWord s.data = false := hasUnicodeWord_false_of_simple s.data h
  have hcls : ∀ x ∈ simpleNameChars, isAsciiWordChar x = !isSpecWhitespace x := by decide
  have h2 : collectRuns isAsciiWordChar s.data
      = collectRuns (fun c => !isSpecWhitespace c) s.data :=
    collectRuns_congr _ _ s.data (fun c hc => hcls c (h c hc))
  simp [words, h1, asciiWords, wsTokensSpec, h2]

/-! ### Registration lemmas for `on` -/

theorem tableGet_tableAdd_self :
    ∀ (t : List (String × List Listener)) (n : String) (l : Listener),
      EventEmitter.tableGet (EventEmitter.tableAdd t n l) n
        = EventEmitter.tableGet t n ++ [l] := by
  intro t
  induction t with
  | nil => intro n l; simp [EventEmitter.tableAdd, EventEmitter.tableGet]
  | cons e rest ih =>
    intro n l
    obtain ⟨k, ls⟩ := e
    by_cases hk : k = n
    · subst hk; simp [EventEmitter.tableAdd, EventEmitter.tableGet]
    · simp [EventEmitter.tableAdd, EventEmitter.tableGet, hk, ih]

theorem tableGet_tableAdd_other :
    ∀ (t : List (String × List Listener)) (n m : String) (l : Listener), n ≠ m →
      EventEmitter.tableGet (EventEmitter.tableAdd t n l) m
        = EventEmitter.tableGet t m := by
  intro t
  induction t with
  | nil =>
    intro n m l hnm
    simp [EventEmitter.tableAdd, EventEmitter.tableGet, hnm]
  | cons e rest ih =>
    intro n m l hnm
    obtain ⟨k, ls⟩ := e
    by_cases hk : k = n
    · subst hk
      simp [EventEmitter.tableAdd, EventEmitter.tableGet, hnm]
    · by_cases hm : k = m
      · subst hm
        simp [EventEmitter.tableAdd, EventEmitter.tableGet, hk]
      · simp [EventEmitter.tableAdd, EventEmitter.tableGet, hk, hm, ih _ _ _ hnm]

theorem onFold_listeners_not_mem :
    ∀ (ns : List String) (b : Bus) (hdl : Listener) (n : String), n ∉ ns →
      EventEmitter.listeners
          (ns.foldl (fun b name => EventEmitter.«on» b name hdl) b) n
        = EventEmitter.listeners b n := by
  intro ns
  induction ns with
  | nil => intro b hdl n _; rfl
  | cons m ms ih =>
    intro b hdl n hn
    have hne : m ≠ n := fun hh => hn (hh ▸ List.mem_cons_self m ms)
    have hn' : n ∉ ms := fun hh => hn (List.mem_cons_of_mem m hh)
    rw [List.foldl_cons, ih _ hdl n hn']
    simp only [EventEmitter.listeners, EventEmitter.«on»]
    exact tableGet_tableAdd_other b.table m n hdl hne

theorem onFold_listeners_mem :
    ∀ (ns : List String) (b : Bus) (hdl : Listener) (n : String),
      n ∈ ns → ns.Nodup →
      EventEmitter.listeners
          (ns.foldl (fun b name => EventEmitter.«on» b name hdl) b) n
        = EventEmitter.listeners b n ++ [hdl] := by
  intro ns
  induction ns with
  | nil => intro b hdl n hn _; simp at hn
  | cons m ms ih =>
    intro b hdl n hn hnd
    have hnd' := List.nodup_cons.mp hnd
    rcases List.mem_cons.mp hn with hn | hn
    · subst hn
      rw [List.foldl_cons, onFold_listeners_not_mem ms _ hdl n hnd'.1]
      simp only [EventEmitter.listeners, EventEmitter.«on»]
      exact tableGet_tableAdd_self b.table n hdl
    · have hne : m ≠ n := fun hh => hnd'.1 (hh ▸ hn)
      rw [List.foldl_cons, ih _ hdl n hn hnd'.2]
      simp only [EventEmitter.listeners, EventEmitter.«on»]
      rw [tableGet_tableAdd_other b.table m n hdl hne]

/-- C8, amended: the name string is split by lodash `words`, not at
whitespace runs: for names over blanks and single-case alphabetic
characters this coincides with the claimed whitespace splitting, and each
resulting token is an independent event name with its own registration
list (`on` appends the handler to exactly the listed tokens' registration
lists and to no other name). -/
theorem claim_C8_amended_words_split :
    (∀ (s : String), (∀ c ∈ s.data, c ∈ simpleNameChars) → words s = wsTokensSpec s)
      ∧ (∀ (b : Bus) (nm : String) (hdl : Listener) (n : String),
          n ∈ words nm → (words nm).Nodup →
          EventEmitter.listeners (Events.«on» b nm hdl) n
            = EventEmitter.listeners b n ++ [hdl])
      ∧ (∀ (b : Bus) (nm : String) (hdl : Listener) (n : String),
          n ∉ words nm →
          EventEmitter.listeners (Events.«on» b nm hdl) n
            = EventEmitter.listeners b n) :=
  ⟨words_eq_wsTokens_of_simple,
    fun b nm hdl n hn hnd => onFold_listeners_mem (words nm) b hdl n hn hnd,
    fun b nm hdl n hn => onFold_listeners_not_mem (words nm) b hdl n hn⟩

/-- Witness for the amended C8: `"a b"` splits into `["a", "b"]` exactly as
the whitespace rule says; registering under `"a b"` appends to `"a"`'s
list and leaves the unrelated name `"q"` untouched. -/
theorem claim_C8_amended_witness :
    (∀ c ∈ ("a b").data, c ∈ simpleNameChars)
      ∧ words "a b" = wsTokensSpec "a b"
      ∧ ("a" ∈ words "a b" ∧ (words "a b").Nodup
          ∧ EventEmitter.listeners
              (Events.«on» emptyBus "a b" (.plain 1 (.value (.num 0)))) "a"
            = EventEmitter.listeners emptyBus "a" ++ [.plain 1 (.value (.num 0))])
      ∧ ("q" ∉ words "a b"
          ∧ EventEmitter.listeners
              (Events.«on» emptyBus "a b" (.plain 1 (.value (.num 0)))) "q"
            = EventEmitter.listeners emptyBus "q") :=
  ⟨by decide,
    claim_C8_amended_words_split.1 "a b" (by decide),
    ⟨by decide, by decide,
      claim_C8_amended_words_split.2.1 emptyBus "a b" (.plain 1 (.value (.num 0))) "a"
        (by decide) (by decide)⟩,
    ⟨by decide,
      claim_C8_amended_words_split.2.2 emptyBus "a b" (.plain 1 (.value (.num 0))) "q"
        (by decide)⟩⟩

/-- Witness for C2: the fresh bus, `once("x", fn)`, then two triggers of
`"x"`; the callback runs exactly once (the bound 1 is reached, not
exceeded). -/
theorem claim_C2_witness :
    wrapCalls emptyBus emptyBus.nextUid = 0
      ∧ emptyBus.nextUid ∉ emptyBus.called
      ∧ wrapCalls (runOps (Events.once emptyBus "x" 5 (.value (.num 0)) none)
          [.opTrigger (.ofList ["x"]) [], .opTrigger (.ofList ["x"]) []])
          emptyBus.nextUid ≤ 1 :=
  ⟨by decide, by decide,
    claim_C2_at_most_once emptyBus "x" 5 (.value (.num 0)) none
      [.opTrigger (.ofList ["x"]) [], .opTrigger (.ofList ["x"]) []]
      (by decide) (by decide)⟩

/-- C1: refuted on the code.  With `cb1` and `cb2` both registered under
`"a"`, `off("a", cb1)` is claimed to remove only `cb1`'s registration; but
`off` delegates to `removeAllListeners(name, listener)`, whose second
argument Node ignores, so `cb2`'s registration is removed as well: the
listener list of `"a"` ends up empty. -/
theorem claim_C1_failing_eval :
    EventEmitter.listeners
        (Events.off
          (Events.«on» (Events.«on» emptyBus "a" (.plain 1 (.value (.num 0))))
            "a" (.plain 2 (.value (.num 0))))
          (some "a") (some (.plain 1 (.value (.num 0))))) "a" = []
      ∧ EventEmitter.listeners
          (Events.«on» (Events.«on» emptyBus "a" (.plain 1 (.value (.num 0))))
            "a" (.plain 2 (.value (.num 0)))) "a"
        = [.plain 1 (.value (.num 0)), .plain 2 (.value (.num 0))] := by
  decide

/-- C3: refuted on the code.  With a once-listener and a plain listener
both registered under `"x"`, firing the once wrapper runs
`this.off("x", once)`, which (removing the whole name, see C1) deletes the
plain listener's registration too: after one trigger the listener list of
`"x"` is empty, though before it held both registrations. -/
theorem claim_C3_failing_eval :
    EventEmitter.listeners
        (Events.trigger
          (Events.«on» (Events.once emptyBus "x" 7 (.value (.num 0)) none)
            "x" (.plain 2 (.value (.num 0))))
          (.ofList ["x"]) []).bus "x" = []
      ∧ EventEmitter.listeners
          (Events.«on» (Events.once emptyBus "x" 7 (.value (.num 0)) none)
            "x" (.plain 2 (.value (.num 0)))) "x"
        = [.wrap "x" 7 (.value (.num 0)) none 0, .plain 2 (.value (.num 0))] := by
  decide

/-- C4: refuted on the code.  After `once("x", cb)` (callback id 7),
`trigger(["x"], 42)` fires the wrapper, but the arrow function inside
`once` reads the enclosing method's `arguments`, so `cb` receives the
`once` call's arguments `("x", cb)` — not the trigger argument `42`. -/
theorem claim_C4_failing_eval :
    (Events.trigger (Events.once emptyBus "x" 7 (.value (.num 3)) none)
        (.ofList ["x"]) [.num 42]).bus.log
      = [⟨7, [.str "x", .fn 7], some 0⟩]
      ∧ ∀ e ∈ (Events.trigger (Events.once emptyBus "x" 7 (.value (.num 3)) none)
          (.ofList ["x"]) [.num 42]).bus.log, e.args ≠ [JsVal.num 42] := by
  decide

/-- C9: refuted on the code.  With only `cb2` registered under `"a"`,
`off("a", cb1)` for the unregistered `cb1` is claimed to be a no-op; but the
ignored second argument of `removeAllListeners` makes it clear the whole
name instead, removing `cb2`'s registration. -/
theorem claim_C9_failing_eval :
    EventEmitter.listeners
        (Events.off (Events.«on» emptyBus "a" (.plain 2 (.value (.num 0))))
          (some "a") (some (.plain 1 (.value (.num 0))))) "a" = []
      ∧ EventEmitter.listeners (Events.«on» emptyBus "a" (.plain 2 (.value (.num 0)))) "a"
        = [.plain 2 (.value (.num 0))] := by
  decide

/-- C8, counterexample: the name `"a-b"` has no whitespace, so the claimed
whitespace-run splitting yields the single token `"a-b"`; lodash `words`
instead splits at the hyphen, and `on("a-b", cb)` registers nothing under
the name `"a-b"`. -/
theorem claim_C8_counterexample :
    words "a-b" = ["a", "b"]
      ∧ wsTokensSpec "a-b" = ["a-b"]
      ∧ EventEmitter.listeners (Events.«on» emptyBus "a-b" (.plain 1 (.value (.num 0)))) "a-b"
        = [] := by
  decide

/-- C10: `trigger` iterates its argument with `for...of`; a plain string
therefore yields its characters as one-character names.  In particular with
listeners `cb1` under `"ab"`, `cb2` under `"a"`, `cb3` under `"b"`,
`trigger("ab", 5)` invokes `cb2` then `cb3` once each and never `cb1`. -/
theorem claim_C10_string_iterates_chars :
    (∀ (b : Bus) (s : String) (args : List JsVal),
        Events.trigger b (.ofString s) args
          = Events.trigger b (.ofList (s.data.map (fun c => String.mk [c]))) args)
      ∧ (Events.trigger
            (Events.«on» (Events.«on» (Events.«on» emptyBus "ab" (.plain 1 (.value (.num 0))))
              "a" (.plain 2 (.value (.num 0)))) "b" (.plain 3 (.value (.num 0))))
            (.ofString "ab") [.num 5]).bus.log
          = [⟨2, [.num 5], none⟩, ⟨3, [.num 5], none⟩] := by
  exact ⟨fun b s args => rfl, by decide⟩

end BookshelfEvents
